import Mathlib

/-!
# Deposit ledger of `examples/deposits/main.go` and `Client.Broadcast` of `client.go`

A shallow embedding of the deposit example of scorum-go: the ledger of deposits,
the history folding of `Monitor` / `processHistory` / `processTransfer`, the debit
decision of `Payout`, the broadcast of `Client.Broadcast` and the finality loop of
`transfer`.

Conventions of the embedding

* `decimal.Decimal` (arbitrary precision, exact `Add`, `Sub`, `LessThan`) is `ℚ`.
* `map[string]*Deposit` is a function `String → Option Deposit`; a `*Deposit` is the
  key under which the record is stored (the map is filled once in `main` and no
  entry is ever added or removed afterwards).
* `map[uint32]*OperationObject` is the list of its entries in the order in which
  `range` enumerates them; a well formed map has pairwise distinct keys.
* `uint32` values are natural numbers, wrapped with `% 2^32` where the source
  subtracts.
* remote calls are responders returning `Except String _`; every function that
  talks to the chain also returns the list of calls it made.
* `log.Printf` is not modelled.
-/

namespace Scorum

/-! ## Data model -/

/-- The type `decimal.Decimal`. -/
abbrev Decimal := ℚ

/-- The type `types.Asset`: only its decimal value and its symbol are used. -/
structure Asset where
  Amount : Decimal
  Symbol : String
deriving DecidableEq

/-- The method `Asset.Decimal()`. -/
def Asset.Decimal (a : Asset) : Decimal := a.Amount

/-- The struct `Deposit` (main.go 40-47). -/
structure Deposit where
  ID : String
  Account : String
  Balance : Decimal
deriving DecidableEq

/-- The struct `types.TransferOperation`, with the four fields `transfer` fills. -/
structure TransferOperation where
  From : String
  To : String
  Amount : Asset
  Memo : String
deriving DecidableEq

/-- The interface `types.Operation`, as seen by the two type switches of main.go:
a `*types.TransferOperation` or an operation of another kind. -/
inductive Operation where
  | transfer (body : TransferOperation)
  | other (type : String)
deriving DecidableEq

/-- The struct `types.OperationObject`: only `Operations` is read. -/
structure OperationObject where
  Operations : List Operation
deriving DecidableEq

/-- The type `account_history.AccountHistory`, a `map[uint32]*OperationObject`,
as the list of its entries in enumeration order. -/
abbrev AccountHistory := List (Nat × OperationObject)

/-- The package variable `deposits`. -/
abbrev Deposits := String → Option Deposit

/-- Well-formedness of a Go map given by its entries: the keys are distinct. -/
def AccountHistory.WF (history : AccountHistory) : Prop :=
  (history.map Prod.fst).Nodup

instance (history : AccountHistory) : Decidable history.WF := by
  unfold AccountHistory.WF; infer_instance

/-! ## History folding (main.go 110-151) -/

/-- The function `processTransfer` (main.go 137-151). -/
def processTransfer (_seq : Nat) (_trx : OperationObject) (op : TransferOperation)
    (deposits : Deposits) : Deposits :=
  let depositID := op.Memo
  match deposits depositID with
  | none => deposits
  | some deposit =>
    Function.update deposits depositID
      (some { deposit with Balance := deposit.Balance + op.Amount.Decimal })

/-- Insertion of one element in a slice ordered by `less`. -/
def orderedInsert {α : Type} (less : α → α → Bool) (a : α) : List α → List α
  | [] => [a]
  | b :: l => if less b a then b :: orderedInsert less a l else a :: b :: l

/-- The call `sort.Slice(keys, less)` of the Go library, with `less` on the values
of the two indices: an insertion sort. -/
def sortSlice {α : Type} (less : α → α → Bool) : List α → List α
  | [] => []
  | a :: l => orderedInsert less a (sortSlice less l)

/-- The slice `keys` of `processHistory` at the start of its second loop
(main.go 112-120): the keys of the map in enumeration order, then sorted with
`less i j := keys[j] > keys[i]`. -/
def sortedKeys (history : AccountHistory) : List Nat :=
  sortSlice (fun ki kj => decide (kj > ki)) (history.map Prod.fst)

/-- The inner loop of `processHistory` (main.go 125-133) over the operations of
one transaction. -/
def processOperations (seq : Nat) (trx : OperationObject) :
    List Operation → Deposits → Deposits
  | [], deposits => deposits
  | op :: ops, deposits =>
    match op with
    | .transfer body => processOperations seq trx ops (processTransfer seq trx body deposits)
    | .other _ => processOperations seq trx ops deposits

/-- The outer loop of `processHistory` (main.go 123-134) over the sorted keys;
`history[seq]` is the lookup in the map. -/
def processKeys (history : AccountHistory) : List Nat → Deposits → Deposits
  | [], deposits => deposits
  | seq :: keys, deposits =>
    match history.lookup seq with
    | none => processKeys history keys deposits
    | some trx => processKeys history keys (processOperations seq trx trx.Operations deposits)

/-- The function `processHistory` (main.go 110-135). -/
def processHistory (history : AccountHistory) (deposits : Deposits) : Deposits :=
  processKeys history (sortedKeys history) deposits

/-! ## Payout decision (main.go 154-174) -/

/-- One iteration of the loop of `Payout` (main.go 156-170) for the deposit picked
by `randomDeposit` (stored under `key`) and the parsed `amount`: the ledger after
the critical section and the list of `transfer` goroutines started. -/
def Payout (key : String) (amount : Asset) (deposits : Deposits) :
    Deposits × List (String × Asset) :=
  match deposits key with
  | none => (deposits, [])
  | some deposit =>
    if deposit.Balance < amount.Decimal then
      (deposits, [])
    else
      (Function.update deposits key
        (some { deposit with Balance := deposit.Balance - amount.Decimal }),
       [(key, amount)])

/-- The closure `revertBalance` of `transfer` (main.go 196-200). -/
def revertBalance (key : String) (amount : Asset) (deposits : Deposits) : Deposits :=
  match deposits key with
  | none => deposits
  | some deposit =>
    Function.update deposits key
      (some { deposit with Balance := deposit.Balance + amount.Decimal })

/-! ## Machine integers -/

/-- Subtraction of two `uint32` values. -/
def sub32 (a b : Nat) : Nat := (a % 2 ^ 32 + 2 ^ 32 - b % 2 ^ 32) % 2 ^ 32

/-- The conversion `int32(x)` of a `uint32` value. -/
def toInt32 (x : Nat) : Int :=
  if x % 2 ^ 32 < 2 ^ 31 then ((x % 2 ^ 32 : Nat) : Int) else ((x % 2 ^ 32 : Nat) : Int) - 2 ^ 32

/-! ## Remote interface -/

/-- The struct `types.Transaction`. -/
structure Transaction where
  RefBlockNum : Nat
  RefBlockPrefix : Nat
  Expiration : Int
  Operations : List Operation
  Signatures : List String
deriving DecidableEq

/-- The result of `GetDynamicGlobalProperties`; `Time` in nanoseconds. -/
structure DynamicGlobalProperties where
  LastIrreversibleBlockNum : Nat
  Time : Int
deriving DecidableEq

/-- The result of `GetBlock`: only `Previous` is read. -/
structure Block where
  Previous : String
deriving DecidableEq

/-- The struct `network_broadcast.BroadcastResponse`: only `BlockNum` is read. -/
structure BroadcastResponse where
  BlockNum : Nat
deriving DecidableEq

/-- The result of `GetOperationsInBlock`: only `Operations` is read. -/
structure OperationsInBlock where
  Operations : List Operation
deriving DecidableEq

/-- The calls a function makes to the node and to package `sign`, in order. -/
inductive Call where
  | GetAccountHistory (account : String) (start : Int) (limit : Int)
  | GetDynamicGlobalProperties
  | GetBlock (blockNum : Nat)
  | RefBlockPrefix (previous : String)
  | Sign (tx : Transaction) (wifs : List String) (chain : String)
  | BroadcastTransactionSynchronous (tx : Transaction)
  | GetOperationsInBlock (blockNum : Nat) (onlyVirtual : Bool)
deriving DecidableEq

/-- The node behind `Client` and the functions of package `sign`, as they answer
during one call of `Broadcast` or one iteration of a polling loop. `Sign` returns
the transaction with its signatures. -/
structure Client where
  GetDynamicGlobalProperties : Except String DynamicGlobalProperties
  GetBlock : Nat → Except String Block
  GetOperationsInBlock : Nat → Bool → Except String OperationsInBlock
  BroadcastTransactionSynchronous : Transaction → Except String BroadcastResponse
  RefBlockPrefix : String → Except String Nat
  RefBlockNum : Nat → Nat
  Sign : Transaction → List String → String → Except String Transaction

/-- The constant `paymentAccount`. -/
def paymentAccount : String := "roselle"

/-- The constant `paymentWIF`. -/
def paymentWIF : String := "5JwWJ2m2jGG9RPcpDix5AvkDzQZJoZvpUQScsDzzXWAKMs8Q6jH"

/-- The variable `chain`, `sign.TestChain`, by name. -/
def chain : String := "TestChain"

/-- The duration `time.Minute`, in nanoseconds. -/
def Minute : Int := 60 * 1000000000

/-! ## Client.Broadcast (client.go 46-78) -/

/-- The argument of `sign.RefBlockNum` at client.go 64,
`props.LastIrreversibleBlockNum - 1&0xffff`: in Go `&` binds tighter than `-`. -/
def refBlockNumArg (lastIrreversibleBlockNum : Nat) : Nat :=
  sub32 lastIrreversibleBlockNum (1 &&& 0xffff)

/-- The other reading of the same text, `(n - 1) & 0xffff`, for comparison. -/
def refBlockNumMasked (lastIrreversibleBlockNum : Nat) : Nat :=
  (sub32 lastIrreversibleBlockNum 1) &&& 0xffff

/-- The method `PushOperation` of a signed transaction. -/
def PushOperation (stx : Transaction) (op : Operation) : Transaction :=
  { stx with Operations := stx.Operations ++ [op] }

/-- The transaction built at client.go 62-71 from the head properties, the derived
reference number of the block and the operations, before it is signed. -/
def newTransaction (client : Client) (props : DynamicGlobalProperties)
    (refBlockPrefix : Nat) (operations : List Operation) : Transaction :=
  let expiration := props.Time + 10 * Minute
  let stx : Transaction :=
    { RefBlockNum := client.RefBlockNum (refBlockNumArg props.LastIrreversibleBlockNum)
      RefBlockPrefix := refBlockPrefix
      Expiration := expiration
      Operations := []
      Signatures := [] }
  operations.foldl PushOperation stx

/-- The method `Client.Broadcast` (client.go 46-78): the calls made and the result. -/
def Broadcast (client : Client) (chain : String) (wifs : List String)
    (operations : List Operation) : List Call × Except String BroadcastResponse :=
  match client.GetDynamicGlobalProperties with
  | .error err => ([.GetDynamicGlobalProperties], .error err)
  | .ok props =>
    match client.GetBlock props.LastIrreversibleBlockNum with
    | .error err =>
      ([.GetDynamicGlobalProperties, .GetBlock props.LastIrreversibleBlockNum], .error err)
    | .ok block =>
      match client.RefBlockPrefix block.Previous with
      | .error err =>
        ([.GetDynamicGlobalProperties, .GetBlock props.LastIrreversibleBlockNum,
          .RefBlockPrefix block.Previous], .error err)
      | .ok refBlockPrefix =>
        let stx := newTransaction client props refBlockPrefix operations
        match client.Sign stx wifs chain with
        | .error err =>
          ([.GetDynamicGlobalProperties, .GetBlock props.LastIrreversibleBlockNum,
            .RefBlockPrefix block.Previous, .Sign stx wifs chain], .error err)
        | .ok signed =>
          ([.GetDynamicGlobalProperties, .GetBlock props.LastIrreversibleBlockNum,
            .RefBlockPrefix block.Previous, .Sign stx wifs chain,
            .BroadcastTransactionSynchronous signed],
           client.BroadcastTransactionSynchronous signed)

/-! ## Monitor (main.go 74-108) -/

/-- The package variables `deposits` and `seq`, both guarded by `mutex`. -/
structure State where
  deposits : Deposits
  seq : Nat

/-- The loop `for recentSeq = range recent { break }` (main.go 76, 86-88): the first
key enumerated, or the zero value when the map is empty. -/
def recentSeqOf (recent : AccountHistory) : Nat :=
  match recent with
  | [] => 0
  | (k, _) :: _ => k

/-- One iteration of the loop of `Monitor` (main.go 75-107). `recent` answers the
query at line 79, `history` answers the query at line 93 given its start index and
limit. Returns the queries made and the state after the iteration. -/
def Monitor (recent : Except String AccountHistory)
    (history : Int → Int → Except String AccountHistory) (st : State) : List Call × State :=
  match recent with
  | .error _ => ([.GetAccountHistory paymentAccount (-1) 0], st)
  | .ok recent =>
    let recentSeq := recentSeqOf recent
    if recentSeq > st.seq then
      let limit := sub32 (sub32 recentSeq st.seq) 1
      match history (toInt32 recentSeq) (toInt32 limit) with
      | .error _ =>
        ([.GetAccountHistory paymentAccount (-1) 0,
          .GetAccountHistory paymentAccount (toInt32 recentSeq) (toInt32 limit)], st)
      | .ok history =>
        ([.GetAccountHistory paymentAccount (-1) 0,
          .GetAccountHistory paymentAccount (toInt32 recentSeq) (toInt32 limit)],
         { deposits := processHistory history st.deposits, seq := recentSeq })
    else
      ([.GetAccountHistory paymentAccount (-1) 0], st)

/-- Modelled from the spec: the index set a history query with start index `f` and
limit `l` asks for under the semantics of the gateway, which is not part of the
sources: the `l + 1` entries with indices `f - l .. f`. -/
def requestedIndices (f l : Int) : List Int :=
  (List.range (l + 1).toNat).map (fun (i : Nat) => f - l + (i : Int))

/-! ## transfer (main.go 188-245) -/

/-- How a call of `transfer` ends. -/
inductive Outcome where
  | BroadcastFailed
  | Confirmed
  | RolledBack
deriving DecidableEq

/-- Modelled from the spec: the method `TransferOperation.Equals`, which is not part
of the sources: structural equality, same from, to, amount and memo. -/
def TransferOperation.Equals (body transferOp : TransferOperation) : Bool :=
  decide (body = transferOp)

/-- The scan of main.go 226-234: whether some operation of the block is a transfer
operation equal to `transferOp`. -/
def findTransfer (transferOp : TransferOperation) : List Operation → Bool
  | [] => false
  | op :: ops =>
    match op with
    | .transfer body => if body.Equals transferOp then true else findTransfer transferOp ops
    | .other _ => findTransfer transferOp ops

/-- One iteration of the finality loop of `transfer` (main.go 210-243) for the
response `resp` of the broadcast: the calls made, the ledger afterwards, and `none`
when the iteration ends at `Step` (wait and go round again) or the way `transfer`
returns. -/
def finalityIteration (client : Client) (resp : BroadcastResponse)
    (transferOp : TransferOperation) (key : String) (amount : Asset)
    (deposits : Deposits) : List Call × Deposits × Option Outcome :=
  match client.GetDynamicGlobalProperties with
  | .error _ => ([.GetDynamicGlobalProperties], deposits, none)
  | .ok prop =>
    if resp.BlockNum > prop.LastIrreversibleBlockNum then
      match client.GetOperationsInBlock resp.BlockNum false with
      | .error _ =>
        ([.GetDynamicGlobalProperties, .GetOperationsInBlock resp.BlockNum false],
         deposits, none)
      | .ok ops =>
        if findTransfer transferOp ops.Operations then
          ([.GetDynamicGlobalProperties, .GetOperationsInBlock resp.BlockNum false],
           deposits, some .Confirmed)
        else
          ([.GetDynamicGlobalProperties, .GetOperationsInBlock resp.BlockNum false],
           revertBalance key amount deposits, some .RolledBack)
    else
      ([.GetDynamicGlobalProperties], deposits, none)

/-- The finality loop of `transfer` (main.go 210-243), `clients i` being the node as
it answers during iteration `i`; `none` when `fuel` iterations did not end it. -/
def finalityLoop (clients : Nat → Client) (resp : BroadcastResponse)
    (transferOp : TransferOperation) (key : String) (amount : Asset) :
    Nat → Nat → Deposits → Option (List Call × Deposits × Outcome)
  | 0, _, _ => none
  | fuel + 1, i, deposits =>
    match finalityIteration (clients i) resp transferOp key amount deposits with
    | (calls, deposits, some outcome) => some (calls, deposits, outcome)
    | (calls, deposits, none) =>
      match finalityLoop clients resp transferOp key amount fuel (i + 1) deposits with
      | none => none
      | some (more, deposits, outcome) => some (calls ++ more, deposits, outcome)

/-- The operation built at main.go 189-194 for the deposit stored under `key`. -/
def newTransferOp (key : String) (amount : Asset) (deposits : Deposits) : TransferOperation :=
  { From := paymentAccount
    To := match deposits key with
      | none => ""
      | some deposit => deposit.Account
    Amount := amount
    Memo := "payout from" }

/-- The function `transfer` (main.go 188-245) for the deposit stored under `key`:
`client` answers during `Broadcast`, `clients i` during iteration `i` of the
finality loop. Returns the calls made, the ledger afterwards and the outcome, or
`none` when `fuel` iterations of the finality loop did not end it. -/
def transfer (client : Client) (clients : Nat → Client) (fuel : Nat) (key : String)
    (amount : Asset) (deposits : Deposits) : Option (List Call × Deposits × Outcome) :=
  let transferOp := newTransferOp key amount deposits
  match Broadcast client chain [paymentWIF] [.transfer transferOp] with
  | (calls, .error _) => some (calls, revertBalance key amount deposits, .BroadcastFailed)
  | (calls, .ok resp) =>
    match finalityLoop clients resp transferOp key amount fuel 0 deposits with
    | none => none
    | some (more, deposits, outcome) => some (calls ++ more, deposits, outcome)

/-! ## The ledger as a transition system

The goroutines of main.go interleave at the granularity of their critical sections.
The state below is the ledger plus the payouts in flight and a record of what
happened; every step runs one piece of the code above. -/

/-- Where a started `transfer` goroutine is. -/
inductive Phase where
  | Broadcasting
  | WaitingFinality (resp : BroadcastResponse)
deriving DecidableEq

/-- A `transfer` goroutine that was started and has not returned. -/
structure PendingTransfer where
  key : String
  amount : Asset
  transferOp : TransferOperation
  phase : Phase
deriving DecidableEq

/-- What happened to the ledger, for accounting. -/
inductive Event where
  | Credited (memo : String) (amount : Decimal)
  | Debited (key : String) (amount : Decimal)
  | Skipped (key : String) (amount : Decimal)
  | Confirmed (key : String) (amount : Decimal)
  | RolledBack (key : String) (amount : Decimal)
deriving DecidableEq

/-- The ledger, the payouts in flight and the record of events. -/
structure System where
  deposits : Deposits
  pending : List PendingTransfer
  events : List Event

/-- The steps of the system: `processTransfer` on one transfer operation of the
history, one iteration of `Payout`, the `Broadcast` of the `i`-th payout in flight
and one iteration of its finality loop, the node answering as `client`. -/
inductive Action where
  | fold (seq : Nat) (trx : OperationObject) (op : TransferOperation)
  | payout (key : String) (amount : Asset)
  | broadcast (i : Nat) (client : Client)
  | poll (i : Nat) (client : Client)

/-- One step of the system. -/
def step (s : System) : Action → System
  | .fold seq trx op =>
    { s with
      deposits := processTransfer seq trx op s.deposits
      events := s.events ++ [.Credited op.Memo op.Amount.Decimal] }
  | .payout key amount =>
    match Payout key amount s.deposits with
    | (deposits, []) =>
      { s with deposits := deposits, events := s.events ++ [.Skipped key amount.Decimal] }
    | (deposits, started) =>
      { deposits := deposits
        pending := s.pending ++ started.map (fun t =>
          { key := t.1, amount := t.2, transferOp := newTransferOp t.1 t.2 s.deposits,
            phase := .Broadcasting })
        events := s.events ++ [.Debited key amount.Decimal] }
  | .broadcast i client =>
    match s.pending.get? i with
    | none => s
    | some p =>
      match p.phase with
      | .WaitingFinality _ => s
      | .Broadcasting =>
        match (Broadcast client chain [paymentWIF] [.transfer p.transferOp]).2 with
        | .error _ =>
          { deposits := revertBalance p.key p.amount s.deposits
            pending := s.pending.eraseIdx i
            events := s.events ++ [.RolledBack p.key p.amount.Decimal] }
        | .ok resp =>
          { s with pending := s.pending.set i { p with phase := .WaitingFinality resp } }
  | .poll i client =>
    match s.pending.get? i with
    | none => s
    | some p =>
      match p.phase with
      | .Broadcasting => s
      | .WaitingFinality resp =>
        match finalityIteration client resp p.transferOp p.key p.amount s.deposits with
        | (_, deposits, none) => { s with deposits := deposits }
        | (_, deposits, some .Confirmed) =>
          { deposits := deposits
            pending := s.pending.eraseIdx i
            events := s.events ++ [.Confirmed p.key p.amount.Decimal] }
        | (_, deposits, some _) =>
          { deposits := deposits
            pending := s.pending.eraseIdx i
            events := s.events ++ [.RolledBack p.key p.amount.Decimal] }

/-- The system after a sequence of steps. -/
def run (s : System) : List Action → System
  | [] => s
  | a :: as => run (step s a) as

/-- The system at the start of `main`: the given deposits, nothing in flight. -/
def initial (deposits : Deposits) : System :=
  { deposits := deposits, pending := [], events := [] }

/-- Sum of the amounts credited by transfers whose memo is `key`. -/
def creditedSum (key : String) : List Event → Decimal
  | [] => 0
  | .Credited memo amount :: es =>
    (if memo = key then amount else 0) + creditedSum key es
  | _ :: es => creditedSum key es

/-- Sum of the amounts of the payouts of `key` that reached `Confirmed`. -/
def confirmedSum (key : String) : List Event → Decimal
  | [] => 0
  | .Confirmed k amount :: es =>
    (if k = key then amount else 0) + confirmedSum key es
  | _ :: es => confirmedSum key es

/-- Sum of the amounts of the payouts of `key` that are debited and not resolved. -/
def pendingSum (key : String) : List PendingTransfer → Decimal
  | [] => 0
  | p :: ps => (if p.key = key then p.amount.Decimal else 0) + pendingSum key ps

/-- The sum, over all transactions of a batch, of the amounts of the transfer
operations whose memo is `key`. -/
def transferSum (key : String) : List Operation → Decimal
  | [] => 0
  | .transfer body :: ops =>
    (if body.Memo = key then body.Amount.Decimal else 0) + transferSum key ops
  | .other _ :: ops => transferSum key ops

/-- The sum of `transferSum` over the transactions of a batch. -/
def batchSum (key : String) : AccountHistory → Decimal
  | [] => 0
  | (_, trx) :: history => transferSum key trx.Operations + batchSum key history

/-- What the record says the balance of `key` is: credited, minus confirmed payouts,
minus payouts debited and not resolved. -/
def accounted (s : System) (key : String) : Decimal :=
  creditedSum key s.events - confirmedSum key s.events - pendingSum key s.pending

/-- Conservation: every deposit holds what the record says. -/
def Conserved (s : System) : Prop :=
  ∀ k d, s.deposits k = some d → d.Balance = accounted s k

/-- A deposit with its balance increased by `x`. -/
def Deposit.credit (d : Deposit) (x : Decimal) : Deposit :=
  { d with Balance := d.Balance + x }

/-- The amount `processKeys` credits to `key` while visiting `keys`. -/
def keysSum (key : String) (history : AccountHistory) (keys : List Nat) : Decimal :=
  (keys.map (fun seq =>
    match history.lookup seq with
    | none => 0
    | some trx => transferSum key trx.Operations)).sum

/-- The deposits of `main` with `dep1` holding `2.5`. -/
def exampleDeposits : Deposits := fun k =>
  if k = "dep1" then some { ID := "dep1", Account := "noelle", Balance := 5 / 2 }
  else if k = "dep2" then some { ID := "dep2", Account := "gina", Balance := 0 }
  else if k = "dep3" then some { ID := "dep3", Account := "margy", Balance := 0 }
  else none

/-- The deposits of `main` (main.go 50-54). -/
def mainDeposits : Deposits := fun k =>
  if k = "dep1" then some { ID := "dep1", Account := "noelle", Balance := 0 }
  else if k = "dep2" then some { ID := "dep2", Account := "gina", Balance := 0 }
  else if k = "dep3" then some { ID := "dep3", Account := "margy", Balance := 0 }
  else none

/-- A history batch with one transfer of `2.5 SCR` tagged `dep1`, one transfer with
an unknown tag and one operation of another kind. -/
def exampleHistory : AccountHistory :=
  [(9, ⟨[.other "vote"]⟩),
   (4, ⟨[.transfer ⟨"alice", "roselle", ⟨5 / 2, "SCR"⟩, "dep1"⟩]⟩),
   (6, ⟨[.transfer ⟨"bob", "roselle", ⟨1, "SCR"⟩, "Dep1"⟩]⟩)]

/-- The payout amount of `Payout`, `0.00000001 SCR`. -/
def exampleAmount : Asset := { Amount := 1 / 100000000, Symbol := "SCR" }

/-- A node whose head reports last irreversible block `lib` at time `0`, that has
the block `lib` and answers the operations of any block with `ops`; signing adds
one signature and the broadcast lands in block `blockNum`. -/
def exampleClient (lib : Nat) (ops : List Operation) (blockNum : Nat) : Client :=
  { GetDynamicGlobalProperties := .ok ⟨lib, 0⟩
    GetBlock := fun _ => .ok ⟨"00000004abcdef"⟩
    GetOperationsInBlock := fun _ _ => .ok ⟨ops⟩
    BroadcastTransactionSynchronous := fun _ => .ok ⟨blockNum⟩
    RefBlockPrefix := fun _ => .ok 4023233417
    RefBlockNum := fun n => n % 65536
    Sign := fun tx _ _ => .ok { tx with Signatures := ["sig"] } }

/-- A node that cannot be reached: every call fails. -/
def offlineClient : Client :=
  { GetDynamicGlobalProperties := .error "connection refused"
    GetBlock := fun _ => .error "connection refused"
    GetOperationsInBlock := fun _ _ => .error "connection refused"
    BroadcastTransactionSynchronous := fun _ => .error "connection refused"
    RefBlockPrefix := fun _ => .ok 0
    RefBlockNum := fun n => n % 65536
    Sign := fun tx _ _ => .ok tx }

/-- The ledger after `Payout` debited `0.00000001 SCR` from `dep1` holding `2.5`. -/
def debitedDeposits : Deposits := (Payout "dep1" exampleAmount exampleDeposits).1

/-- The operation `transfer` builds for that payout. -/
def examplePayoutOp : TransferOperation := newTransferOp "dep1" exampleAmount debitedDeposits

/-- A run of the system from the deposits of `main`: a transfer of `2.5 SCR` tagged
`dep1` is folded, a payout of `dep1` is debited, a payout of `dep2` is skipped, the
broadcast of the first lands in block 10 and an iteration of its finality loop finds
the operation in that block. -/
def exampleActions : List Action :=
  [.fold 4 ⟨[]⟩ ⟨"alice", "roselle", ⟨5 / 2, "SCR"⟩, "dep1"⟩,
   .payout "dep1" exampleAmount,
   .payout "dep2" exampleAmount,
   .broadcast 0 (exampleClient 3 [] 10),
   .poll 0 (exampleClient 5 [.transfer ⟨"roselle", "noelle", exampleAmount, "payout from"⟩] 10)]

/-! # Theorems -/

/-! ## Sorting -/

theorem orderedInsert_perm {α : Type} (less : α → α → Bool) (a : α) (l : List α) :
    (orderedInsert less a l).Perm (a :: l) := by
  induction l with
  | nil => exact List.Perm.refl _
  | cons b l ih =>
    unfold orderedInsert
    split
    · exact ((List.Perm.cons b ih).trans (List.Perm.swap a b l))
    · exact List.Perm.refl _

theorem sortSlice_perm {α : Type} (less : α → α → Bool) (l : List α) :
    (sortSlice less l).Perm l := by
  induction l with
  | nil => exact List.Perm.refl _
  | cons a l ih =>
    unfold sortSlice
    exact (orderedInsert_perm less a _).trans (List.Perm.cons a ih)

theorem orderedInsert_sorted (a : Nat) (l : List Nat) (h : l.Sorted (· ≤ ·)) :
    (orderedInsert (fun ki kj => decide (kj > ki)) a l).Sorted (· ≤ ·) := by
  induction l with
  | nil => simp [orderedInsert]
  | cons b l ih =>
    have hb : ∀ x ∈ l, b ≤ x := (List.sorted_cons.1 h).1
    have hl : l.Sorted (· ≤ ·) := (List.sorted_cons.1 h).2
    unfold orderedInsert
    by_cases hab : a > b
    · simp only [hab, decide_True, if_true]
      refine List.sorted_cons.2 ⟨?_, ih hl⟩
      intro x hx
      have hx' : x ∈ a :: l := (orderedInsert_perm _ a l).subset hx
      rcases List.mem_cons.1 hx' with rfl | hx''
      · exact Nat.le_of_lt hab
      · exact hb x hx''
    · simp only [hab, decide_False]
      have hle : a ≤ b := Nat.le_of_not_lt hab
      refine List.sorted_cons.2 ⟨?_, h⟩
      intro x hx
      rcases List.mem_cons.1 hx with rfl | hx'
      · exact hle
      · exact Nat.le_trans hle (hb x hx')

theorem sortSlice_sorted (l : List Nat) :
    (sortSlice (fun ki kj => decide (kj > ki)) l).Sorted (· ≤ ·) := by
  induction l with
  | nil => simp [sortSlice]
  | cons a l ih =>
    unfold sortSlice
    exact orderedInsert_sorted a _ ih

theorem sortedKeys_perm (history : AccountHistory) :
    (sortedKeys history).Perm (history.map Prod.fst) :=
  sortSlice_perm _ _

theorem sortedKeys_sorted_lt (history : AccountHistory) (h : history.WF) :
    (sortedKeys history).Sorted (· < ·) :=
  (sortSlice_sorted _).lt_of_le ((sortedKeys_perm history).nodup_iff.2 h)

/-- C9: `processHistory` iterates over `sortedKeys history`, which is a permutation
of the keys of the map, strictly ascending and without repetition, and is the same
list for every enumeration order of the same map. -/
theorem processHistory_visits_sorted_keys (history : AccountHistory) (h : history.WF) :
    (∀ deposits, processHistory history deposits
        = processKeys history (sortedKeys history) deposits) ∧
    (sortedKeys history).Perm (history.map Prod.fst) ∧
    (sortedKeys history).Sorted (· < ·) ∧
    (sortedKeys history).Nodup ∧
    (∀ k, (sortedKeys history).count k = if k ∈ history.map Prod.fst then 1 else 0) ∧
    (∀ other : AccountHistory, other.Perm history → sortedKeys other = sortedKeys history) := by
  have hperm := sortedKeys_perm history
  have hnodup : (sortedKeys history).Nodup := hperm.nodup_iff.2 h
  refine ⟨fun _ => rfl, hperm, sortedKeys_sorted_lt history h, hnodup, ?_, ?_⟩
  · intro k
    by_cases hk : k ∈ history.map Prod.fst
    · rw [if_pos hk]
      exact List.count_eq_one_of_mem hnodup (hperm.mem_iff.2 hk)
    · rw [if_neg hk]
      exact List.count_eq_zero_of_not_mem (fun hm => hk (hperm.mem_iff.1 hm))
  · intro other ho
    have hwf : other.WF := (ho.map Prod.fst).nodup_iff.2 h
    have hp : (sortedKeys other).Perm (sortedKeys history) :=
      (sortedKeys_perm other).trans ((ho.map Prod.fst).trans hperm.symm)
    exact List.eq_of_perm_of_sorted hp (sortedKeys_sorted_lt other hwf)
      (sortedKeys_sorted_lt history h)

theorem processHistory_visits_sorted_keys_witness :
    AccountHistory.WF [(7, ⟨[]⟩), (3, ⟨[]⟩), (5, ⟨[]⟩)] ∧
    sortedKeys [(7, ⟨[]⟩), (3, ⟨[]⟩), (5, ⟨[]⟩)] = [3, 5, 7] ∧
    (sortedKeys [(7, ⟨[]⟩), (3, ⟨[]⟩), (5, ⟨[]⟩)]).Sorted (· < ·) :=
  ⟨by decide, by decide,
    (processHistory_visits_sorted_keys [(7, ⟨[]⟩), (3, ⟨[]⟩), (5, ⟨[]⟩)] (by decide)).2.2.1⟩

/-! ## Folding the history -/

theorem Deposit.credit_zero (d : Deposit) : d.credit 0 = d := by
  simp [Deposit.credit]

theorem Deposit.credit_credit (d : Deposit) (x y : Decimal) :
    (d.credit x).credit y = d.credit (x + y) := by
  simp [Deposit.credit, add_assoc]

theorem processTransfer_apply (seq : Nat) (trx : OperationObject) (op : TransferOperation)
    (deposits : Deposits) (k : String) :
    processTransfer seq trx op deposits k
      = (deposits k).map (fun d => d.credit (if op.Memo = k then op.Amount.Decimal else 0)) := by
  unfold processTransfer
  by_cases hk : op.Memo = k
  · subst hk
    cases hd : deposits op.Memo with
    | none => simp [hd]
    | some d => simp [Function.update_same, Deposit.credit]
  · cases hd : deposits op.Memo with
    | none =>
      simp only [hk, if_false]
      cases deposits k <;> simp [Deposit.credit_zero]
    | some d =>
      simp only [hk, if_false]
      rw [Function.update_noteq (Ne.symm hk)]
      cases deposits k <;> simp [Deposit.credit_zero]

theorem processOperations_apply (seq : Nat) (trx : OperationObject) (ops : List Operation)
    (deposits : Deposits) (k : String) :
    processOperations seq trx ops deposits k
      = (deposits k).map (fun d => d.credit (transferSum k ops)) := by
  induction ops generalizing deposits with
  | nil => cases h : deposits k <;> simp [processOperations, transferSum, Deposit.credit_zero, h]
  | cons op ops ih =>
    cases op with
    | transfer body =>
      simp only [processOperations, transferSum]
      rw [ih, processTransfer_apply]
      cases deposits k <;> simp [Deposit.credit_credit]
    | other t =>
      simp only [processOperations, transferSum]
      rw [ih]

theorem processKeys_apply (history : AccountHistory) (keys : List Nat)
    (deposits : Deposits) (k : String) :
    processKeys history keys deposits k
      = (deposits k).map (fun d => d.credit (keysSum k history keys)) := by
  induction keys generalizing deposits with
  | nil => cases h : deposits k <;> simp [processKeys, keysSum, Deposit.credit_zero, h]
  | cons seq keys ih =>
    unfold processKeys
    cases hl : history.lookup seq with
    | none =>
      simp only []
      rw [ih]
      simp [keysSum, hl]
    | some trx =>
      simp only []
      rw [ih, processOperations_apply]
      cases deposits k <;> simp [keysSum, hl, Deposit.credit_credit]

theorem lookup_of_mem (history : AccountHistory) (h : history.WF)
    (e : Nat × OperationObject) (he : e ∈ history) : history.lookup e.1 = some e.2 := by
  induction history with
  | nil => cases he
  | cons x l ih =>
    have hx : x.1 ∉ l.map Prod.fst := (List.nodup_cons.1 h).1
    have hl : (l.map Prod.fst).Nodup := (List.nodup_cons.1 h).2
    obtain ⟨xk, xv⟩ := x
    rcases List.mem_cons.1 he with rfl | hm
    · simp [List.lookup_cons]
    · have hne : e.1 ≠ xk := by
        intro heq
        have hmem : e.1 ∈ l.map Prod.fst := List.mem_map_of_mem Prod.fst hm
        rw [heq] at hmem
        exact hx hmem
      rw [List.lookup_cons]
      have : (e.1 == xk) = false := by simpa using hne
      rw [this]
      exact ih hl hm

theorem batchSum_eq (k : String) (history : AccountHistory) :
    batchSum k history = (history.map (fun e => transferSum k e.2.Operations)).sum := by
  induction history with
  | nil => rfl
  | cons x l ih =>
    obtain ⟨xk, xv⟩ := x
    simp [batchSum, ih]

theorem keysSum_all (k : String) (history : AccountHistory) (h : history.WF) :
    keysSum k history (history.map Prod.fst) = batchSum k history := by
  rw [batchSum_eq]
  unfold keysSum
  rw [List.map_map]
  congr 1
  apply List.map_congr_left
  intro e he
  simp [lookup_of_mem history h e he]

theorem keysSum_sorted (k : String) (history : AccountHistory) (h : history.WF) :
    keysSum k history (sortedKeys history) = batchSum k history := by
  rw [← keysSum_all k history h]
  unfold keysSum
  exact ((sortedKeys_perm history).map _).sum_eq

/-- C6: after `processHistory` every known deposit holds its previous balance plus
the sum of the amounts of the transfer operations of the batch whose memo is exactly
its identifier; no deposit is added; a batch without a transfer to a known
identifier leaves the ledger as it was. -/
theorem processHistory_credits (history : AccountHistory) (deposits : Deposits)
    (h : history.WF) :
    (∀ k d, deposits k = some d →
      processHistory history deposits k
        = some { d with Balance := d.Balance + batchSum k history }) ∧
    (∀ k, deposits k = none → processHistory history deposits k = none) ∧
    ((∀ e ∈ history, ∀ op ∈ e.2.Operations, ∀ body, op = .transfer body →
        deposits body.Memo = none) → processHistory history deposits = deposits) := by
  have key : ∀ k, processHistory history deposits k
      = (deposits k).map (fun d => d.credit (batchSum k history)) := by
    intro k
    unfold processHistory
    rw [processKeys_apply, keysSum_sorted k history h]
  refine ⟨?_, ?_, ?_⟩
  · intro k d hd
    rw [key, hd]
    rfl
  · intro k hd
    rw [key, hd]
    rfl
  · intro hall
    funext k
    rw [key]
    cases hd : deposits k with
    | none => rfl
    | some d =>
      have hz : batchSum k history = 0 := by
        rw [batchSum_eq]
        apply List.sum_eq_zero
        intro x hx
        obtain ⟨e, he, rfl⟩ := List.mem_map.1 hx
        have : ∀ ops : List Operation, (∀ op ∈ ops, ∀ body, op = .transfer body →
            deposits body.Memo = none) → transferSum k ops = 0 := by
          intro ops
          induction ops with
          | nil => intro _; rfl
          | cons op ops ih =>
            intro hops
            have ih' := ih (fun op' ho => hops op' (List.mem_cons_of_mem _ ho))
            cases op with
            | transfer body =>
              have hb := hops (.transfer body) (List.mem_cons_self _ _) body rfl
              have hne : body.Memo ≠ k := by
                intro heq
                rw [heq, hd] at hb
                cases hb
              simp [transferSum, hne, ih']
            | other t => simp [transferSum, ih']
        exact this _ (hall e he)
      simp [hz, Deposit.credit_zero]

theorem processHistory_credits_witness :
    exampleHistory.WF ∧
    batchSum "dep1" exampleHistory = 5 / 2 ∧
    processHistory exampleHistory mainDeposits "dep1"
      = some { ID := "dep1", Account := "noelle", Balance := 0 + batchSum "dep1" exampleHistory } :=
  ⟨by decide,
   by simp [batchSum, transferSum, exampleHistory, Asset.Decimal],
   (processHistory_credits exampleHistory mainDeposits (by decide)).1 "dep1"
     { ID := "dep1", Account := "noelle", Balance := 0 } (by simp [mainDeposits])⟩

/-! ## The debit decision -/

/-- C1: for a deposit with balance `b ≥ 0` and a payout amount `a`, one iteration of
`Payout` either (`b < a`) leaves the ledger as it was and starts no transfer, or
(`b ≥ a`) sets the balance of that deposit to `b - a`, leaves the others as they
were and starts exactly one transfer; the balance afterwards is `≥ 0`. -/
theorem Payout_debit_decision (deposits : Deposits) (key : String) (d : Deposit) (a : Asset)
    (hd : deposits key = some d) (hb : 0 ≤ d.Balance) :
    (d.Balance < a.Decimal → Payout key a deposits = (deposits, [])) ∧
    (a.Decimal ≤ d.Balance → Payout key a deposits
        = (Function.update deposits key (some { d with Balance := d.Balance - a.Decimal }),
           [(key, a)])) ∧
    (∃ d', (Payout key a deposits).1 key = some d' ∧ 0 ≤ d'.Balance ∧
      (((Payout key a deposits).2 = [] ∧ d' = d) ∨
       ((Payout key a deposits).2 = [(key, a)] ∧
          d' = { d with Balance := d.Balance - a.Decimal }))) := by
  refine ⟨?_, ?_, ?_⟩
  · intro hlt
    simp [Payout, hd, hlt]
  · intro hge
    simp [Payout, hd, not_lt.2 hge]
  · by_cases hlt : d.Balance < a.Decimal
    · refine ⟨d, ?_, hb, Or.inl ⟨?_, rfl⟩⟩ <;> simp [Payout, hd, hlt]
    · have hge : a.Decimal ≤ d.Balance := not_lt.1 hlt
      refine ⟨{ d with Balance := d.Balance - a.Decimal }, ?_, sub_nonneg.2 hge,
        Or.inr ⟨?_, rfl⟩⟩ <;> simp [Payout, hd, hlt]

theorem Payout_debit_decision_witness :
    mainDeposits "dep2" = some { ID := "dep2", Account := "gina", Balance := 0 } ∧
    Payout "dep2" exampleAmount mainDeposits = (mainDeposits, []) :=
  ⟨by simp [mainDeposits],
   (Payout_debit_decision mainDeposits "dep2" { ID := "dep2", Account := "gina", Balance := 0 }
      exampleAmount (by simp [mainDeposits]) (le_refl _)).1
      (by norm_num [exampleAmount, Asset.Decimal])⟩

/-! ## The cursor of Monitor -/

theorem sub32_eq (a b : Nat) (ha : a < 2 ^ 32) (hb : b ≤ a) : sub32 a b = a - b := by
  unfold sub32
  omega

theorem toInt32_eq (x : Nat) (hx : x < 2 ^ 31) : toInt32 x = (x : Int) := by
  unfold toInt32
  have h1 : x % 2 ^ 32 = x := Nat.mod_eq_of_lt (by omega)
  rw [h1, if_pos hx]

/-- C7: a tick of `Monitor` never lowers the cursor; when both queries succeed and
the most recent index `r` exceeds the cursor the batch is folded and the cursor
becomes `r`; when the first query fails, or `r` does not exceed the cursor, or the
second query fails, the state is unchanged; and after a tick without a failed query
a tick that observes the same `r` leaves the state unchanged. -/
theorem Monitor_cursor (recent : Except String AccountHistory)
    (history : Int → Int → Except String AccountHistory) (st : State) :
    st.seq ≤ (Monitor recent history st).2.seq ∧
    (∀ rec h, recent = .ok rec → recentSeqOf rec > st.seq →
      history (toInt32 (recentSeqOf rec))
        (toInt32 (sub32 (sub32 (recentSeqOf rec) st.seq) 1)) = .ok h →
      (Monitor recent history st).2
        = { deposits := processHistory h st.deposits, seq := recentSeqOf rec }) ∧
    (∀ e, recent = .error e → (Monitor recent history st).2 = st) ∧
    (∀ rec, recent = .ok rec → recentSeqOf rec ≤ st.seq →
      (Monitor recent history st).2 = st) ∧
    (∀ rec e, recent = .ok rec →
      history (toInt32 (recentSeqOf rec))
        (toInt32 (sub32 (sub32 (recentSeqOf rec) st.seq) 1)) = .error e →
      (Monitor recent history st).2 = st) ∧
    (∀ rec rec2 history2, recent = .ok rec →
      (recentSeqOf rec ≤ st.seq ∨ ∃ h, history (toInt32 (recentSeqOf rec))
        (toInt32 (sub32 (sub32 (recentSeqOf rec) st.seq) 1)) = .ok h) →
      recentSeqOf rec2 = recentSeqOf rec →
      (Monitor (.ok rec2) history2 (Monitor recent history st).2).2
        = (Monitor recent history st).2) := by
  have hok : ∀ rec h, recent = .ok rec → recentSeqOf rec > st.seq →
      history (toInt32 (recentSeqOf rec))
        (toInt32 (sub32 (sub32 (recentSeqOf rec) st.seq) 1)) = .ok h →
      (Monitor recent history st).2
        = { deposits := processHistory h st.deposits, seq := recentSeqOf rec } := by
    intro rec h hr hgt hh
    subst hr
    simp [Monitor, hgt, hh]
  have herr : ∀ e, recent = .error e → (Monitor recent history st).2 = st := by
    intro e hr
    subst hr
    simp [Monitor]
  have hle : ∀ rec, recent = .ok rec → recentSeqOf rec ≤ st.seq →
      (Monitor recent history st).2 = st := by
    intro rec hr hle
    subst hr
    simp [Monitor, not_lt.2 hle]
  have hfail : ∀ rec e, recent = .ok rec →
      history (toInt32 (recentSeqOf rec))
        (toInt32 (sub32 (sub32 (recentSeqOf rec) st.seq) 1)) = .error e →
      (Monitor recent history st).2 = st := by
    intro rec e hr hh
    subst hr
    by_cases hgt : recentSeqOf rec > st.seq
    · simp [Monitor, hgt, hh]
    · simp [Monitor, hgt]
  refine ⟨?_, hok, herr, hle, hfail, ?_⟩
  · cases recent with
    | error e => rw [herr e rfl]
    | ok rec =>
      by_cases hgt : recentSeqOf rec > st.seq
      · cases hh : history (toInt32 (recentSeqOf rec))
            (toInt32 (sub32 (sub32 (recentSeqOf rec) st.seq) 1)) with
        | error e => rw [hfail rec e rfl hh]
        | ok h =>
          rw [hok rec h rfl hgt hh]
          exact Nat.le_of_lt hgt
      · rw [hle rec rfl (not_lt.1 hgt)]
  · intro rec rec2 history2 hr hdone hsame
    have hcur : recentSeqOf rec ≤ (Monitor recent history st).2.seq := by
      rcases hdone with hle' | ⟨h, hh⟩
      · rw [hle rec hr hle']
        exact hle'
      · by_cases hgt : recentSeqOf rec > st.seq
        · rw [hok rec h hr hgt hh]
        · rw [hle rec hr (not_lt.1 hgt)]
          exact not_lt.1 hgt
    have hn : ¬ recentSeqOf rec2 > (Monitor recent history st).2.seq := by
      rw [hsame]
      exact not_lt.2 hcur
    generalize (Monitor recent history st).2 = st' at hn
    simp [Monitor, hn]

/-- C8: for a cursor `s` and a most recent index `r` with `s < r < 2^31`, the second
query of `Monitor` has start index `r` and limit `r - s - 1`, the unsigned
subtractions do not wrap and the conversions to `int32` change nothing; under the
semantics of the gateway the indices asked for are exactly those `x` with
`s < x ≤ r`: `r` is among them, `s` is not, and there are `r - s` of them. -/
theorem Monitor_query_range (s r : Nat) (hsr : s < r) (hr : r < 2 ^ 31) :
    sub32 (sub32 r s) 1 = r - s - 1 ∧
    toInt32 r = (r : Int) ∧
    toInt32 (sub32 (sub32 r s) 1) = (r : Int) - (s : Int) - 1 ∧
    (∀ rec history deposits, recentSeqOf rec = r →
      (Monitor (.ok rec) history { deposits := deposits, seq := s }).1
        = [.GetAccountHistory paymentAccount (-1) 0,
           .GetAccountHistory paymentAccount (r : Int) ((r : Int) - (s : Int) - 1)]) ∧
    (∀ x : Int, x ∈ requestedIndices (r : Int) ((r : Int) - (s : Int) - 1)
        ↔ (s : Int) < x ∧ x ≤ (r : Int)) ∧
    (r : Int) ∈ requestedIndices (r : Int) ((r : Int) - (s : Int) - 1) ∧
    (s : Int) ∉ requestedIndices (r : Int) ((r : Int) - (s : Int) - 1) ∧
    (requestedIndices (r : Int) ((r : Int) - (s : Int) - 1)).length = r - s ∧
    (requestedIndices (r : Int) ((r : Int) - (s : Int) - 1)).Nodup := by
  have h1 : sub32 r s = r - s := sub32_eq r s (by omega) (Nat.le_of_lt hsr)
  have h2 : sub32 (sub32 r s) 1 = r - s - 1 := by
    rw [h1]
    exact sub32_eq (r - s) 1 (by omega) (by omega)
  have h3 : toInt32 r = (r : Int) := toInt32_eq r hr
  have h4 : toInt32 (sub32 (sub32 r s) 1) = (r : Int) - (s : Int) - 1 := by
    rw [h2, toInt32_eq _ (by omega)]
    omega
  have hmem : ∀ x : Int, x ∈ requestedIndices (r : Int) ((r : Int) - (s : Int) - 1)
      ↔ (s : Int) < x ∧ x ≤ (r : Int) := by
    intro x
    unfold requestedIndices
    simp only [List.mem_map, List.mem_range]
    constructor
    · rintro ⟨i, hi, rfl⟩
      omega
    · intro hx
      refine ⟨(x - s - 1).toNat, ?_, ?_⟩ <;> omega
  refine ⟨h2, h3, h4, ?_, hmem, (hmem r).2 (by omega), fun hs => ?_, ?_, ?_⟩
  · intro rec history deposits hrec
    have hgt : recentSeqOf rec > s := by omega
    unfold Monitor
    simp only [hgt, if_true]
    rw [hrec, h3, h4]
    cases history (r : Int) ((r : Int) - (s : Int) - 1) <;> rfl
  · have := (hmem s).1 hs
    omega
  · unfold requestedIndices
    rw [List.length_map, List.length_range]
    omega
  · unfold requestedIndices
    refine (List.nodup_range _).map ?_
    intro i j hij
    simp only at hij
    omega

theorem Monitor_query_range_witness :
    (Monitor (.ok [(7, ⟨[]⟩)]) (fun _ _ => .ok []) { deposits := mainDeposits, seq := 4 }).1
      = [.GetAccountHistory paymentAccount (-1) 0,
         .GetAccountHistory paymentAccount ((7 : Nat) : Int) (((7 : Nat) : Int) - ((4 : Nat) : Int) - 1)] :=
  (Monitor_query_range 4 7 (by decide) (by decide)).2.2.2.1 [(7, ⟨[]⟩)] (fun _ _ => .ok [])
    mainDeposits rfl

/-! ## Client.Broadcast -/

theorem foldl_PushOperation (ops : List Operation) (stx : Transaction) :
    ops.foldl PushOperation stx = { stx with Operations := stx.Operations ++ ops } := by
  induction ops generalizing stx with
  | nil => simp
  | cons op ops ih => simp [List.foldl_cons, ih, PushOperation]

theorem newTransaction_eq (client : Client) (props : DynamicGlobalProperties)
    (pfx : Nat) (ops : List Operation) :
    newTransaction client props pfx ops
      = { RefBlockNum := client.RefBlockNum (refBlockNumArg props.LastIrreversibleBlockNum)
          RefBlockPrefix := pfx
          Expiration := props.Time + 600000000000
          Operations := ops
          Signatures := [] } := by
  unfold newTransaction
  simp [foldl_PushOperation, Minute]

theorem refBlockNumArg_eq (n : Nat) : refBlockNumArg n = sub32 n 1 := by
  have h : (1 &&& 0xffff : Nat) = 1 := by decide
  unfold refBlockNumArg
  rw [h]

theorem refBlockNumMasked_eq (n : Nat) : refBlockNumMasked n = sub32 n 1 % 2 ^ 16 := by
  unfold refBlockNumMasked
  exact Nat.and_pow_two_sub_one_eq_mod (sub32 n 1) 16

/-- C10: for a last irreversible block number `n < 2^32` the argument of
`sign.RefBlockNum` in `Broadcast` is `(n - 1) mod 2^32`; it equals `(n - 1) & 0xffff`
exactly when `1 ≤ n ≤ 65536`, is `2^32 - 1` for `n = 0` and `n - 1` for `n ≥ 1`; the
block fetched is block `n`, the second reference field is derived from its
`Previous`, and the expiration is the head time plus ten minutes. -/
theorem Broadcast_reference_fields (n : Nat) (hn : n < 2 ^ 32) :
    ((refBlockNumArg n : Nat) : Int) = ((n : Int) - 1) % 2 ^ 32 ∧
    (refBlockNumArg n = refBlockNumMasked n ↔ 1 ≤ n ∧ n ≤ 65536) ∧
    (n = 0 → refBlockNumArg n = 2 ^ 32 - 1) ∧
    (1 ≤ n → refBlockNumArg n = n - 1) ∧
    (∀ (client : Client) (chain : String) (wifs : List String) (ops : List Operation)
        (time : Int) (block : Block) (pfx : Nat),
      client.GetDynamicGlobalProperties = .ok ⟨n, time⟩ →
      client.GetBlock n = .ok block →
      client.RefBlockPrefix block.Previous = .ok pfx →
      ∃ rest, (Broadcast client chain wifs ops).1
        = [.GetDynamicGlobalProperties, .GetBlock n, .RefBlockPrefix block.Previous,
           .Sign { RefBlockNum := client.RefBlockNum (refBlockNumArg n)
                   RefBlockPrefix := pfx
                   Expiration := time + 10 * (60 * 1000000000)
                   Operations := ops
                   Signatures := [] } wifs chain] ++ rest) := by
  have harg := refBlockNumArg_eq n
  have hmask := refBlockNumMasked_eq n
  refine ⟨?_, ?_, ?_, ?_, ?_⟩
  · rw [harg]
    unfold sub32
    omega
  · rw [harg, hmask]
    unfold sub32
    omega
  · intro h0
    rw [harg]
    unfold sub32
    omega
  · intro h1
    rw [harg]
    unfold sub32
    omega
  · intro client chain wifs ops time block pfx hp hb hx
    unfold Broadcast
    simp only [hp, hb, hx]
    rw [newTransaction_eq]
    cases client.Sign _ wifs chain with
    | error e => exact ⟨[], by simp⟩
    | ok signed => exact ⟨[.BroadcastTransactionSynchronous signed], by simp⟩

theorem Broadcast_reference_fields_witness :
    refBlockNumArg 0 = 2 ^ 32 - 1 ∧ refBlockNumMasked 0 = 65535 ∧
    refBlockNumArg 65537 = 65536 ∧ refBlockNumMasked 65537 = 0 :=
  ⟨(Broadcast_reference_fields 0 (by decide)).2.2.1 rfl, by decide, by decide, by decide⟩

/-! ## transfer: failure of the broadcast -/

theorem revertBalance_Payout (deposits : Deposits) (key : String) (d : Deposit) (a : Asset)
    (hd : deposits key = some d) (hge : a.Decimal ≤ d.Balance) :
    revertBalance key a (Payout key a deposits).1 = deposits := by
  have hp : (Payout key a deposits).1
      = Function.update deposits key (some { d with Balance := d.Balance - a.Decimal }) := by
    simp [Payout, hd, not_lt.2 hge]
  rw [hp]
  unfold revertBalance
  simp only [Function.update_same, Function.update_idem, sub_add_cancel]
  exact Function.update_eq_self_iff.2 hd.symm

theorem Broadcast_no_GetOperationsInBlock (client : Client) (chain : String)
    (wifs : List String) (ops : List Operation) (n : Nat) (v : Bool) :
    Call.GetOperationsInBlock n v ∉ (Broadcast client chain wifs ops).1 := by
  unfold Broadcast
  repeat (first | split | simp)

/-- C4: for a deposit with balance `b ≥ a`, the debit of `Payout` followed by a
`transfer` whose `Broadcast` returns an error gives back the ledger as it was before
the debit, and `transfer` returns after the calls of `Broadcast` alone, whatever
the fuel of the finality loop; and `Broadcast` returns the error of the head query,
of the block fetch, of the derivation of the reference field or of the signature
without a synchronous broadcast among its calls. -/
theorem transfer_broadcast_failure (deposits : Deposits) (key : String) (d : Deposit)
    (a : Asset) (hd : deposits key = some d) (hge : a.Decimal ≤ d.Balance) :
    (∀ (client : Client) (clients : Nat → Client) (fuel : Nat) (err : String),
      (Broadcast client chain [paymentWIF]
        [.transfer (newTransferOp key a (Payout key a deposits).1)]).2 = .error err →
      transfer client clients fuel key a (Payout key a deposits).1
        = some ((Broadcast client chain [paymentWIF]
            [.transfer (newTransferOp key a (Payout key a deposits).1)]).1,
          deposits, .BroadcastFailed) ∧
      (∀ n v, Call.GetOperationsInBlock n v ∉ (Broadcast client chain [paymentWIF]
            [.transfer (newTransferOp key a (Payout key a deposits).1)]).1)) ∧
    (∀ (client : Client) (chain : String) (wifs : List String) (ops : List Operation)
        (e : String),
      client.GetDynamicGlobalProperties = .error e →
      Broadcast client chain wifs ops = ([.GetDynamicGlobalProperties], .error e)) ∧
    (∀ (client : Client) (chain : String) (wifs : List String) (ops : List Operation)
        (props : DynamicGlobalProperties) (e : String),
      client.GetDynamicGlobalProperties = .ok props →
      client.GetBlock props.LastIrreversibleBlockNum = .error e →
      Broadcast client chain wifs ops
        = ([.GetDynamicGlobalProperties, .GetBlock props.LastIrreversibleBlockNum],
           .error e)) ∧
    (∀ (client : Client) (chain : String) (wifs : List String) (ops : List Operation)
        (props : DynamicGlobalProperties) (block : Block) (e : String),
      client.GetDynamicGlobalProperties = .ok props →
      client.GetBlock props.LastIrreversibleBlockNum = .ok block →
      client.RefBlockPrefix block.Previous = .error e →
      Broadcast client chain wifs ops
        = ([.GetDynamicGlobalProperties, .GetBlock props.LastIrreversibleBlockNum,
            .RefBlockPrefix block.Previous], .error e)) ∧
    (∀ (client : Client) (chain : String) (wifs : List String) (ops : List Operation)
        (props : DynamicGlobalProperties) (block : Block) (pfx : Nat) (e : String),
      client.GetDynamicGlobalProperties = .ok props →
      client.GetBlock props.LastIrreversibleBlockNum = .ok block →
      client.RefBlockPrefix block.Previous = .ok pfx →
      client.Sign (newTransaction client props pfx ops) wifs chain = .error e →
      Broadcast client chain wifs ops
        = ([.GetDynamicGlobalProperties, .GetBlock props.LastIrreversibleBlockNum,
            .RefBlockPrefix block.Previous,
            .Sign (newTransaction client props pfx ops) wifs chain], .error e)) := by
  refine ⟨?_, ?_, ?_, ?_, ?_⟩
  · intro client clients fuel err herr
    refine ⟨?_, fun n v => Broadcast_no_GetOperationsInBlock _ _ _ _ n v⟩
    unfold transfer
    generalize hB : Broadcast client chain [paymentWIF]
      [.transfer (newTransferOp key a (Payout key a deposits).1)] = B at herr
    obtain ⟨calls, res⟩ := B
    simp only at herr
    subst herr
    simp only [hB]
    rw [revertBalance_Payout deposits key d a hd hge]
  · intro client chain wifs ops e h1
    simp [Broadcast, h1]
  · intro client chain wifs ops props e h1 h2
    simp [Broadcast, h1, h2]
  · intro client chain wifs ops props block e h1 h2 h3
    simp [Broadcast, h1, h2, h3]
  · intro client chain wifs ops props block pfx e h1 h2 h3 h4
    simp [Broadcast, h1, h2, h3, h4]

theorem transfer_broadcast_failure_witness :
    exampleDeposits "dep1" = some { ID := "dep1", Account := "noelle", Balance := 5 / 2 } ∧
    transfer offlineClient (fun _ => offlineClient) 0 "dep1" exampleAmount
        (Payout "dep1" exampleAmount exampleDeposits).1
      = some ([.GetDynamicGlobalProperties], exampleDeposits, .BroadcastFailed) :=
  ⟨by simp [exampleDeposits],
   ((transfer_broadcast_failure exampleDeposits "dep1"
      { ID := "dep1", Account := "noelle", Balance := 5 / 2 } exampleAmount
      (by simp [exampleDeposits]) (by norm_num [exampleAmount, Asset.Decimal])).1
      offlineClient (fun _ => offlineClient) 0 "connection refused" rfl).1⟩

/-! ## transfer: the finality loop -/

/-- C2, the code at a failing input: the broadcast landed in block 5, the head
reports last irreversible block 10 and block 5 holds the operation (or not). The
iteration asks for the head only and ends at `Step` with the ledger untouched, and
however many iterations see the same answers the loop does not return. -/
theorem finalityIteration_waits_when_irreversible :
    finalityIteration (exampleClient 10 [.transfer examplePayoutOp] 5) ⟨5⟩ examplePayoutOp
        "dep1" exampleAmount debitedDeposits
      = ([.GetDynamicGlobalProperties], debitedDeposits, none) ∧
    finalityIteration (exampleClient 10 [] 5) ⟨5⟩ examplePayoutOp
        "dep1" exampleAmount debitedDeposits
      = ([.GetDynamicGlobalProperties], debitedDeposits, none) ∧
    (∀ fuel i, finalityLoop (fun _ => exampleClient 10 [.transfer examplePayoutOp] 5) ⟨5⟩
        examplePayoutOp "dep1" exampleAmount fuel i debitedDeposits = none) := by
  have h1 : finalityIteration (exampleClient 10 [.transfer examplePayoutOp] 5) ⟨5⟩
      examplePayoutOp "dep1" exampleAmount debitedDeposits
      = ([.GetDynamicGlobalProperties], debitedDeposits, none) := by
    simp [finalityIteration, exampleClient]
  refine ⟨h1, by simp [finalityIteration, exampleClient], ?_⟩
  intro fuel
  induction fuel with
  | zero => intro i; rfl
  | succ fuel ih =>
    intro i
    unfold finalityLoop
    simp only [h1, ih]

/-- C3, the code at a failing input: the broadcast landed in block 10 and the head
reports last irreversible block 5. The iteration fetches the operations of block 10
and `transfer` returns: rolled back with the amount credited when the operation is
not listed, confirmed when it is. -/
theorem finalityIteration_decides_before_irreversible :
    finalityIteration (exampleClient 5 [] 10) ⟨10⟩ examplePayoutOp
        "dep1" exampleAmount debitedDeposits
      = ([.GetDynamicGlobalProperties, .GetOperationsInBlock 10 false],
         revertBalance "dep1" exampleAmount debitedDeposits, some .RolledBack) ∧
    debitedDeposits "dep1"
      = some { ID := "dep1", Account := "noelle", Balance := 249999999 / 100000000 } ∧
    revertBalance "dep1" exampleAmount debitedDeposits "dep1"
      = some { ID := "dep1", Account := "noelle", Balance := 5 / 2 } ∧
    finalityIteration (exampleClient 5 [.transfer examplePayoutOp] 10) ⟨10⟩ examplePayoutOp
        "dep1" exampleAmount debitedDeposits
      = ([.GetDynamicGlobalProperties, .GetOperationsInBlock 10 false],
         debitedDeposits, some .Confirmed) := by
  have hd : debitedDeposits "dep1"
      = some { ID := "dep1", Account := "noelle", Balance := 249999999 / 100000000 } := by
    simp [debitedDeposits, Payout, exampleDeposits, exampleAmount, Asset.Decimal]
    norm_num
  refine ⟨?_, hd, ?_, ?_⟩
  · simp [finalityIteration, exampleClient, findTransfer]
  · simp [revertBalance, hd, exampleAmount, Asset.Decimal]
    norm_num
  · simp [finalityIteration, exampleClient, findTransfer, TransferOperation.Equals]

/-! ## Conservation -/

theorem creditedSum_append (k : String) (es : List Event) (e : Event) :
    creditedSum k (es ++ [e]) = creditedSum k es + creditedSum k [e] := by
  induction es with
  | nil => simp [creditedSum]
  | cons x es ih => cases x <;> simp [creditedSum, ih, add_assoc]

theorem confirmedSum_append (k : String) (es : List Event) (e : Event) :
    confirmedSum k (es ++ [e]) = confirmedSum k es + confirmedSum k [e] := by
  induction es with
  | nil => simp [confirmedSum]
  | cons x es ih => cases x <;> simp [confirmedSum, ih, add_assoc]

theorem pendingSum_append (k : String) (ps qs : List PendingTransfer) :
    pendingSum k (ps ++ qs) = pendingSum k ps + pendingSum k qs := by
  induction ps with
  | nil => simp [pendingSum]
  | cons x ps ih => simp [pendingSum, ih, add_assoc]

theorem pendingSum_eraseIdx (k : String) (ps : List PendingTransfer) (i : Nat)
    (p : PendingTransfer) (h : ps.get? i = some p) :
    pendingSum k (ps.eraseIdx i)
      = pendingSum k ps - (if p.key = k then p.amount.Decimal else 0) := by
  induction ps generalizing i with
  | nil => simp at h
  | cons x ps ih =>
    cases i with
    | zero =>
      simp only [List.get?_cons_zero, Option.some.injEq] at h
      subst h
      simp [pendingSum]
    | succ i =>
      simp only [List.get?_cons_succ] at h
      simp only [List.eraseIdx_cons_succ, pendingSum, ih i h]
      ring

theorem pendingSum_set (k : String) (ps : List PendingTransfer) (i : Nat)
    (p q : PendingTransfer) (h : ps.get? i = some p) (hk : q.key = p.key)
    (ha : q.amount = p.amount) :
    pendingSum k (ps.set i q) = pendingSum k ps := by
  induction ps generalizing i with
  | nil => simp at h
  | cons x ps ih =>
    cases i with
    | zero =>
      simp only [List.get?_cons_zero, Option.some.injEq] at h
      subst h
      simp [pendingSum, hk, ha]
    | succ i =>
      simp only [List.get?_cons_succ] at h
      simp only [List.set_cons_succ, pendingSum, ih i h]

theorem revertBalance_apply (key : String) (a : Asset) (deposits : Deposits) (k : String) :
    revertBalance key a deposits k
      = (deposits k).map (fun d => d.credit (if key = k then a.Decimal else 0)) := by
  unfold revertBalance
  by_cases hk : key = k
  · subst hk
    cases hd : deposits key with
    | none => simp [hd]
    | some d => simp [Function.update_same, Deposit.credit]
  · cases hd : deposits key with
    | none =>
      simp only [hk, if_false]
      cases deposits k <;> simp [Deposit.credit_zero]
    | some d =>
      simp only [hk, if_false]
      rw [Function.update_noteq (Ne.symm hk)]
      cases deposits k <;> simp [Deposit.credit_zero]

theorem finalityIteration_cases (client : Client) (resp : BroadcastResponse)
    (op : TransferOperation) (key : String) (a : Asset) (deposits : Deposits) :
    (finalityIteration client resp op key a deposits).2 = (deposits, none) ∨
    (finalityIteration client resp op key a deposits).2 = (deposits, some .Confirmed) ∨
    (finalityIteration client resp op key a deposits).2
      = (revertBalance key a deposits, some .RolledBack) := by
  unfold finalityIteration
  repeat (first | split | simp)

theorem conserved_of_delta (s t : System) (δ : String → Decimal)
    (hdep : ∀ k, t.deposits k = (s.deposits k).map (fun d => d.credit (δ k)))
    (hacc : ∀ k, accounted t k = accounted s k + δ k) (h : Conserved s) : Conserved t := by
  intro k d hd
  rw [hdep k] at hd
  cases hs : s.deposits k with
  | none => simp [hs] at hd
  | some d0 =>
    simp only [hs, Option.map_some', Option.some.injEq] at hd
    subst hd
    rw [hacc k, ← h k d0 hs]
    rfl

theorem conserved_of_same (s t : System) (hdep : t.deposits = s.deposits)
    (hacc : ∀ k, accounted t k = accounted s k) (h : Conserved s) : Conserved t := by
  intro k d hd
  rw [hdep] at hd
  rw [hacc k]
  exact h k d hd

theorem step_fold_conserved (s : System) (seq : Nat) (trx : OperationObject)
    (op : TransferOperation) (h : Conserved s) : Conserved (step s (.fold seq trx op)) := by
  refine conserved_of_delta s _ (fun k => if op.Memo = k then op.Amount.Decimal else 0)
    (fun k => ?_) (fun k => ?_) h
  · exact processTransfer_apply seq trx op s.deposits k
  · simp only [step, accounted, creditedSum_append, confirmedSum_append, creditedSum,
      confirmedSum]
    ring

theorem step_payout_conserved (s : System) (key : String) (a : Asset)
    (h : Conserved s) : Conserved (step s (.payout key a)) := by
  cases hd : s.deposits key with
  | none =>
    refine conserved_of_same s _ ?_ (fun k => ?_) h
    · simp [step, Payout, hd]
    · simp [step, Payout, hd, accounted, creditedSum_append, confirmedSum_append,
        creditedSum, confirmedSum]
  | some d =>
    by_cases hlt : d.Balance < a.Decimal
    · refine conserved_of_same s _ ?_ (fun k => ?_) h
      · simp [step, Payout, hd, hlt]
      · simp [step, Payout, hd, hlt, accounted, creditedSum_append, confirmedSum_append,
          creditedSum, confirmedSum]
    · refine conserved_of_delta s _ (fun k => -(if key = k then a.Decimal else 0))
        (fun k => ?_) (fun k => ?_) h
      · simp only [step, Payout, hd, hlt, if_false]
        by_cases hk : key = k
        · subst hk
          simp [hd, Deposit.credit, sub_eq_add_neg]
        · rw [Function.update_noteq (Ne.symm hk)]
          cases s.deposits k <;> simp [hk, Deposit.credit_zero]
      · simp only [step, Payout, hd, hlt, if_false, accounted, creditedSum_append,
          confirmedSum_append, creditedSum, confirmedSum, pendingSum_append, List.map_cons,
          List.map_nil, pendingSum]
        ring

theorem step_broadcast_conserved (s : System) (i : Nat) (client : Client)
    (h : Conserved s) : Conserved (step s (.broadcast i client)) := by
  cases hp : s.pending.get? i with
  | none =>
    simp only [step, hp]
    exact h
  | some p =>
    cases hph : p.phase with
    | WaitingFinality resp =>
      simp only [step, hp, hph]
      exact h
    | Broadcasting =>
      cases hB : (Broadcast client chain [paymentWIF] [.transfer p.transferOp]).2 with
      | error e =>
        simp only [step, hp, hph, hB]
        refine conserved_of_delta s _ (fun k => if p.key = k then p.amount.Decimal else 0)
          (fun k => ?_) (fun k => ?_) h
        · exact revertBalance_apply p.key p.amount s.deposits k
        · simp only [accounted, creditedSum_append, confirmedSum_append, creditedSum,
            confirmedSum, pendingSum_eraseIdx k s.pending i p hp]
          ring
      | ok resp =>
        simp only [step, hp, hph, hB]
        refine conserved_of_same s _ rfl (fun k => ?_) h
        simp only [accounted]
        rw [pendingSum_set k s.pending i p { p with phase := .WaitingFinality resp } hp rfl rfl]

theorem step_poll_conserved (s : System) (i : Nat) (client : Client)
    (h : Conserved s) : Conserved (step s (.poll i client)) := by
  cases hp : s.pending.get? i with
  | none =>
    simp only [step, hp]
    exact h
  | some p =>
    cases hph : p.phase with
    | Broadcasting =>
      simp only [step, hp, hph]
      exact h
    | WaitingFinality resp =>
      have hc := finalityIteration_cases client resp p.transferOp p.key p.amount s.deposits
      simp only [step, hp, hph]
      generalize finalityIteration client resp p.transferOp p.key p.amount s.deposits = r at hc
      obtain ⟨calls, ds, o⟩ := r
      simp only [Prod.mk.injEq] at hc
      rcases hc with ⟨rfl, rfl⟩ | ⟨rfl, rfl⟩ | ⟨rfl, rfl⟩
      · exact conserved_of_same s _ rfl (fun k => rfl) h
      · refine conserved_of_delta s _ (fun _ => 0) (fun k => ?_) (fun k => ?_) h
        · cases s.deposits k <;> simp [Deposit.credit_zero]
        · simp only [accounted, creditedSum_append, confirmedSum_append, creditedSum,
            confirmedSum, pendingSum_eraseIdx k s.pending i p hp]
          ring
      · refine conserved_of_delta s _ (fun k => if p.key = k then p.amount.Decimal else 0)
          (fun k => ?_) (fun k => ?_) h
        · exact revertBalance_apply p.key p.amount s.deposits k
        · simp only [accounted, creditedSum_append, confirmedSum_append, creditedSum,
            confirmedSum, pendingSum_eraseIdx k s.pending i p hp]
          ring

theorem step_conserved (s : System) (a : Action) (h : Conserved s) :
    Conserved (step s a) := by
  cases a with
  | fold seq trx op => exact step_fold_conserved s seq trx op h
  | payout key amount => exact step_payout_conserved s key amount h
  | broadcast i client => exact step_broadcast_conserved s i client h
  | poll i client => exact step_poll_conserved s i client h

theorem run_conserved (s : System) (actions : List Action) (h : Conserved s) :
    Conserved (run s actions) := by
  induction actions generalizing s with
  | nil => exact h
  | cons a as ih => exact ih (step s a) (step_conserved s a h)

/-- C5: in every state reached from a ledger with all balances zero by folding
transfers, payout decisions, broadcasts and iterations of the finality loop, each
deposit holds the sum of the amounts credited under its identifier, minus the
amounts of its confirmed payouts, minus the amounts of its payouts debited and not
resolved; with no payout in flight it holds credited minus confirmed. -/
theorem ledger_conservation (deposits : Deposits)
    (hz : ∀ k d, deposits k = some d → d.Balance = 0) (actions : List Action) :
    (∀ k d, (run (initial deposits) actions).deposits k = some d →
      d.Balance = creditedSum k (run (initial deposits) actions).events
        - confirmedSum k (run (initial deposits) actions).events
        - pendingSum k (run (initial deposits) actions).pending) ∧
    ((run (initial deposits) actions).pending = [] →
      ∀ k d, (run (initial deposits) actions).deposits k = some d →
        d.Balance = creditedSum k (run (initial deposits) actions).events
          - confirmedSum k (run (initial deposits) actions).events) := by
  have h0 : Conserved (initial deposits) := by
    intro k d hd
    simp [accounted, initial, creditedSum, confirmedSum, pendingSum, hz k d hd]
  have hrun := run_conserved (initial deposits) actions h0
  refine ⟨hrun, ?_⟩
  intro hp k d hd
  have := hrun k d hd
  rw [accounted, hp] at this
  simpa [pendingSum] using this

theorem mainDeposits_zero (k : String) (d : Deposit) (h : mainDeposits k = some d) :
    d.Balance = 0 := by
  unfold mainDeposits at h
  split_ifs at h <;> simp only [Option.some.injEq] at h <;> subst h <;> rfl

theorem ledger_conservation_witness :
    (∀ k d, mainDeposits k = some d → d.Balance = 0) ∧
    (run (initial mainDeposits) exampleActions).pending = [] ∧
    (run (initial mainDeposits) exampleActions).deposits "dep1"
      = some { ID := "dep1", Account := "noelle", Balance := 249999999 / 100000000 } ∧
    (249999999 / 100000000 : Decimal)
      = creditedSum "dep1" (run (initial mainDeposits) exampleActions).events
        - confirmedSum "dep1" (run (initial mainDeposits) exampleActions).events := by
  have n1 : ¬ ((5 / 2 : ℚ) < 100000000⁻¹) := by norm_num
  have n2 : (0 : ℚ) < 100000000⁻¹ := by norm_num
  have hp : (run (initial mainDeposits) exampleActions).pending = [] := by
    simp [run, step, initial, exampleActions, mainDeposits, processTransfer, Payout,
      exampleAmount, Asset.Decimal, Broadcast, exampleClient, finalityIteration,
      findTransfer, TransferOperation.Equals, newTransferOp, newTransaction, paymentAccount,
      Function.update_apply, n1, n2]
  have hd : (run (initial mainDeposits) exampleActions).deposits "dep1"
      = some { ID := "dep1", Account := "noelle", Balance := 249999999 / 100000000 } := by
    simp [run, step, initial, exampleActions, mainDeposits, processTransfer, Payout,
      exampleAmount, Asset.Decimal, Broadcast, exampleClient, finalityIteration,
      findTransfer, TransferOperation.Equals, newTransferOp, newTransaction, paymentAccount,
      Function.update_apply, n1, n2]
    norm_num
  exact ⟨mainDeposits_zero, hp, hd,
    (ledger_conservation mainDeposits mainDeposits_zero exampleActions).2 hp "dep1" _ hd⟩

end Scorum
